import Mathlib

/-!
# Shallow embedding of the prisma-redis-extension caching layer

This file embeds the `$allOperations` handler of the Prisma Redis cache
extension (`src/types.ts`: the `createPrismaRedisCache` extension body and
`removeFormRedis`) as executable Lean definitions and proves, or refutes,
the specified properties of its read-through caching and write-triggered
invalidation behaviour.

Modelling conventions:
* The upstream Prisma executor (`query` / `fetchFromPrisma`), the cache call
  performed by the `async-cache-dedupe` cache function, and the outcomes of
  the individual purge promises are oracles supplied in a `Beh` record; the
  handler itself is a pure function of the configuration, the mutable
  `cache.define` state, and these oracles.
* A run records the issued external commands (executor call, cache-layer
  call, `cache.invalidateAll` patterns, raw `redis.del` keys) in order, the
  number of upstream executor invocations, and the JS promise outcome
  (`Except`: a rejection or a resolved value).
* JS truthiness of the option values involved (`cacheKey || model`,
  `cacheTime || cacheOptions.ttl`, `!model`, `excludeMethods?.length`) is
  modelled explicitly on `Option`.
-/

namespace PrismaRedis

/-- Decidable equality for promise outcomes, needed to evaluate runs on
concrete inputs. -/
instance {E V : Type} [DecidableEq E] [DecidableEq V] : DecidableEq (Except E V) := fun a b =>
  match a, b with
  | Except.ok v, Except.ok w =>
    if h : v = w then isTrue (by rw [h]) else isFalse (by intro hc; injection hc; contradiction)
  | Except.error e, Except.error f =>
    if h : e = f then isTrue (by rw [h]) else isFalse (by intro hc; injection hc; contradiction)
  | Except.ok _, Except.error _ => isFalse (by intro hc; injection hc)
  | Except.error _, Except.ok _ => isFalse (by intro hc; injection hc)

/-- Read kinds: the `PrismaQueryAction` union of `src/types.ts`. -/
inductive PrismaQueryAction where
  | findFirst | findUnique | findMany | aggregate | count | groupBy | findRaw | aggregateRaw
deriving DecidableEq, Repr

/-- Write kinds: the `PrismaMutationAction` union of `src/types.ts`. -/
inductive PrismaMutationAction where
  | create | createMany | update | updateMany | upsert | delete | deleteMany | executeRawUnsafe
deriving DecidableEq, Repr

/-- `PrismaAction = PrismaQueryAction | PrismaMutationAction` (`src/types.ts`). -/
inductive PrismaAction where
  | query (a : PrismaQueryAction)
  | mutation (a : PrismaMutationAction)
deriving DecidableEq, Repr

/-- Modelled from the spec: `defaultCacheMethods` is imported from
`src/cacheMethods.ts`, which is absent from the sources; per the spec's
"fixed enumeration of read kinds" and the `PrismaQueryAction` union it
enumerates every read kind. -/
def defaultCacheMethods : List PrismaAction :=
  [.query .findFirst, .query .findUnique, .query .findMany, .query .aggregate,
   .query .count, .query .groupBy, .query .findRaw, .query .aggregateRaw]

/-- Modelled from the spec: `defaultMutationMethods` is imported from
`src/cacheMethods.ts`, which is absent from the sources; per the spec's
"fixed enumeration of write kinds" and the `PrismaMutationAction` union it
enumerates every write kind. -/
def defaultMutationMethods : List PrismaAction :=
  [.mutation .create, .mutation .createMany, .mutation .update, .mutation .updateMany,
   .mutation .upsert, .mutation .delete, .mutation .deleteMany, .mutation .executeRawUnsafe]

/-- One entry of the `models` option (the per-model destructuring in the
extension body: `model`, `cacheKey`, `cacheTime`, `excludeMethods`,
`invalidateRelated`, `customInvalidate`, `useContainsInvalidation`). -/
structure ModelConfig where
  model : String
  cacheKey : Option String := none
  cacheTime : Option Nat := none
  excludeMethods : Option (List PrismaAction) := none
  invalidateRelated : Option (List String) := none
  customInvalidate : Option (List String) := none
  useContainsInvalidation : Option Bool := none
deriving DecidableEq, Repr

/-- The options of `createPrismaRedisCache`. `storageIsRedis` models
`storage?.type === "redis" && storage?.options?.client` being truthy. -/
structure Config where
  models : List ModelConfig := []
  cacheTime : Nat := 0
  excludeModels : List String := []
  excludeMethods : List PrismaAction := []
  useContainsInvalidation : Bool := false
  storageIsRedis : Bool := false
deriving Repr

/-- What one `cache.define(model, ...)` call registers: the closure-captured
per-model `cacheKey` (`none` for the generic define, whose references
template uses the destructured `model` parameter alone) and the ttl it was
defined with. -/
structure CacheDef where
  cacheKey : Option String
  ttl : Nat
deriving DecidableEq, Repr

/-- The mutable map of defined cache functions (`cache[model]`). Model
names colliding with the cache object's own method names are assumed not to
occur, so property lookup is plain map lookup. -/
abbrev CacheSt := List (String × CacheDef)

/-- `cache[model]` lookup. -/
def lookupDef : CacheSt → String → Option CacheDef
  | [], _ => none
  | (k, d) :: rest, m => if k = m then some d else lookupDef rest m

/-- JS `a || b` for an optional string against an optional string (an
absent or empty string is falsy). -/
def jsOrOpt : Option String → Option String → Option String
  | some s, b => if s = "" then b else some s
  | none, b => b

/-- JS `a || b` for an optional number against a number (absent or `0` is
falsy); used for `cacheTime || cacheOptions.ttl`. -/
def jsOrNat : Option Nat → Nat → Nat
  | some n, b => if n = 0 then b else n
  | none, b => b

/-- JS string interpolation of a possibly-undefined value: `undefined`
prints as the literal string `"undefined"`. -/
def jsUndef : Option String → String
  | some s => s
  | none => "undefined"

/-- `model.toLowerCase()`: ASCII lowercase of every character. -/
def lowerString (s : String) : String := String.mk (s.data.map Char.toLower)

/-- The references computed by a defined cache function when the cache
stores an entry: the per-model define returns ``[`${cacheKey || model}~${key}`]``
and the generic define returns ``[`${model}~${key}`]``, where `model` is the
property destructured from the cache call's argument object. -/
def referencesOf (d : CacheDef) (argsModel : Option String) (key : String) : List String :=
  [jsUndef (jsOrOpt d.cacheKey argsModel) ++ "~" ++ key]

/-- The cache function is invoked as `cacheFunction({ cb: fetchFromPrisma,
queryArgs })`: the argument object carries no `model` property, so the
references callbacks destructure `model` as `undefined`. -/
def cacheCallArgsModel : Option String := none

/-- `defaultCacheMethods.filter((m) => excludeMethods.includes(m))`. -/
def excludedCacheMethodsOf (cfg : Config) : List PrismaAction :=
  defaultCacheMethods.filter (fun a => a ∈ cfg.excludeMethods)

/-- One step of the `models?.forEach` define loop: define the cache function
for `e.model` when it does not exist yet, matches the operation's model, the
model is not excluded, and the operation is not in the entry's
`excludeMethods`. -/
def defineModelEntry (cfg : Config) (m : String) (op : PrismaAction)
    (st : CacheSt) (e : ModelConfig) : CacheSt :=
  if lookupDef st e.model = none ∧ e.model = m ∧ m ∉ cfg.excludeModels ∧
      op ∉ e.excludeMethods.getD [] then
    st ++ [(m, ⟨e.cacheKey, jsOrNat e.cacheTime cfg.cacheTime⟩)]
  else st

/-- `models?.find(({ model: cachedModel, excludeMethods }) => cachedModel ===
model && excludeMethods?.length)`. -/
def findExcl : List ModelConfig → String → Option ModelConfig
  | [], _ => none
  | e :: es, m =>
    if e.model = m ∧ e.excludeMethods.getD [] ≠ [] then some e else findExcl es m

/-- Whether `excludedCacheMethodsInModels?.excludeMethods?.includes(operation)`
is truthy. -/
def perModelBlocked (cfg : Config) (m : String) (op : PrismaAction) : Bool :=
  match findExcl cfg.models m with
  | some e => decide (op ∈ e.excludeMethods.getD [])
  | none => false

/-- The define phase of `$allOperations` (source lines guarded by
`if (!excludedCacheMethods?.includes(operation))`): the per-model define
loop followed by the generic `cache.define(model, ...)`. -/
def definePhase (cfg : Config) (st : CacheSt) (m : String) (op : PrismaAction) : CacheSt :=
  if op ∈ excludedCacheMethodsOf cfg then st
  else
    let st1 := cfg.models.foldl (defineModelEntry cfg m op) st
    if lookupDef st1 m = none ∧ m ∉ cfg.excludeModels ∧ perModelBlocked cfg m op = false then
      st1 ++ [(m, ⟨none, cfg.cacheTime⟩)]
    else st1

/-- The externally observable commands a run issues, in order. -/
inductive Eff where
  | execCall
  | cacheCall (model : String)
  | invalidateAll (p : String)
  | redisDel (p : String)
deriving DecidableEq, Repr

/-- The substring-invalidation pattern ```*"${model}":*` ``. -/
def containsPat (m : String) : String := "*\"" ++ m ++ "\":*"

/-- Sequential concatenation of mapped lists (the nested push loops of the
invalidation block). -/
def concatMap (f : α → List β) : List α → List β
  | [] => []
  | a :: as => f a ++ concatMap f as

/-- The purge commands pushed for `invalidateRelated` of one matching models
entry: direct patterns for every related model, plus the substring patterns
when the entry's own `useContainsInvalidation` (falling back to the global
flag) is set, with raw-store deletes for the substring patterns when the
backend is Redis. -/
def relatedCmds (cfg : Config) (e : ModelConfig) : List Eff :=
  concatMap (fun r =>
    [Eff.invalidateAll ("*" ++ r ++ "~*"), Eff.invalidateAll (r ++ "~*")]
    ++ (if e.useContainsInvalidation.getD cfg.useContainsInvalidation then
          [Eff.invalidateAll (containsPat r), Eff.invalidateAll (containsPat (lowerString r))]
          ++ (if cfg.storageIsRedis then
                [Eff.redisDel (containsPat r), Eff.redisDel (containsPat (lowerString r))]
              else [])
        else []))
    (e.invalidateRelated.getD [])

/-- The purge commands pushed for `customInvalidate` of one matching models
entry. -/
def customCmds (cfg : Config) (e : ModelConfig) : List Eff :=
  concatMap (fun k =>
    [Eff.invalidateAll k] ++ (if cfg.storageIsRedis then [Eff.redisDel k] else []))
    (e.customInvalidate.getD [])

/-- The full `invalidateList` built after a successful mutation on `m`, in
push order: the two direct patterns, the raw-store delete of `*m~*` when the
backend is Redis, the substring patterns when globally enabled, then the
related/custom purges of every models entry whose `model` equals `m`. -/
def invalidationCommands (cfg : Config) (m : String) : List Eff :=
  [Eff.invalidateAll ("*" ++ m ++ "~*"), Eff.invalidateAll (m ++ "~*")]
  ++ (if cfg.storageIsRedis then [Eff.redisDel ("*" ++ m ++ "~*")] else [])
  ++ (if cfg.useContainsInvalidation then
        [Eff.invalidateAll (containsPat m), Eff.invalidateAll (containsPat (lowerString m))]
        ++ (if cfg.storageIsRedis then
              [Eff.redisDel (containsPat m), Eff.redisDel (containsPat (lowerString m))]
            else [])
      else [])
  ++ concatMap (fun e => relatedCmds cfg e ++ customCmds cfg e)
      (cfg.models.filter (fun e => e.model == m))

/-- The environment of one run: the upstream executor's outcome for a
direct `fetchFromPrisma` call, the behaviour of the `async-cache-dedupe`
cache call (whether it reached the upstream executor, and its promise
outcome), and the outcomes of the individual purge promises. -/
structure Beh (V E : Type) where
  exec : Except E V
  cacheUsedExec : Bool
  cacheRes : Except E V
  invOut : String → Except E Unit
  redisOut : String → Except E Unit

/-- The observable outcome of one `$allOperations` run. -/
structure OpResult (V E : Type) where
  st : CacheSt
  effects : List Eff
  execCalls : Nat
  result : Except E V

/-- `removeFormRedis` awaits `redis.del` inside a try/catch and logs any
failure, so its promise always resolves. -/
def removeFormRedis {E : Type} (delOutcome : Except E Unit) : Except E Unit :=
  match delOutcome with
  | _ => Except.ok ()

/-- The settlement of one purge promise of the invalidate list. -/
def settleEff (beh : Beh V E) : Eff → Except E Unit
  | Eff.invalidateAll p => beh.invOut p
  | Eff.redisDel p => removeFormRedis (beh.redisOut p)
  | _ => Except.ok ()

/-- The first rejection among the purge promises, in list order (the
rejection `Promise.all` reports). -/
def firstErr (beh : Beh V E) : List Eff → Option E
  | [] => none
  | c :: cs =>
    match settleEff beh c with
    | Except.error e => some e
    | Except.ok _ => firstErr beh cs

/-- `await Promise.all(invalidateList)` followed by returning `result`:
rejects with the first purge rejection, otherwise resolves with the
executor's value. -/
def promiseAll (beh : Beh V E) (cmds : List Eff) (v : V) : Except E V :=
  match firstErr beh cmds with
  | some e => Except.error e
  | none => Except.ok v

/-- `if (!model) return query(queryArgs)`: the direct call with no cache
interaction. -/
def noModelRun (st : CacheSt) (beh : Beh V E) : OpResult V E :=
  { st := st, effects := [Eff.execCall], execCalls := 1, result := beh.exec }

/-- The cached branch: `try { result = await cacheFunction({cb, queryArgs}) }
catch { result = await fetchFromPrisma(queryArgs) }`. -/
def cachePathRun (st1 : CacheSt) (m : String) (beh : Beh V E) : OpResult V E :=
  match beh.cacheRes with
  | Except.ok v =>
    { st := st1, effects := [Eff.cacheCall m],
      execCalls := if beh.cacheUsedExec then 1 else 0, result := Except.ok v }
  | Except.error _ =>
    { st := st1, effects := [Eff.cacheCall m, Eff.execCall],
      execCalls := (if beh.cacheUsedExec then 1 else 0) + 1, result := beh.exec }

/-- The uncached branch: `result = await fetchFromPrisma(queryArgs)` followed,
for mutation methods, by building the invalidate list and awaiting
`Promise.all` over it. -/
def elsePathRun (cfg : Config) (st1 : CacheSt) (m : String) (op : PrismaAction)
    (beh : Beh V E) : OpResult V E :=
  match beh.exec with
  | Except.error e => { st := st1, effects := [Eff.execCall], execCalls := 1, result := Except.error e }
  | Except.ok v =>
    if op ∈ defaultMutationMethods then
      { st := st1, effects := Eff.execCall :: invalidationCommands cfg m, execCalls := 1,
        result := promiseAll beh (invalidationCommands cfg m) v }
    else
      { st := st1, effects := [Eff.execCall], execCalls := 1, result := Except.ok v }

/-- The guard of the cached branch: the model and operation are not excluded
globally, the operation is not a mutation method, and `cache[model]` is a
function. -/
def takesCachePath (cfg : Config) (st1 : CacheSt) (m : String) (op : PrismaAction) : Prop :=
  m ∉ cfg.excludeModels ∧ op ∉ excludedCacheMethodsOf cfg ∧
    op ∉ defaultMutationMethods ∧ (lookupDef st1 m).isSome = true

instance (cfg : Config) (st1 : CacheSt) (m : String) (op : PrismaAction) :
    Decidable (takesCachePath cfg st1 m op) := by
  unfold takesCachePath; infer_instance

/-- The `$allOperations` handler of the extension, as one run over the
oracles in `beh`. -/
def allOperations (cfg : Config) (st : CacheSt) (model : Option String)
    (op : PrismaAction) (beh : Beh V E) : OpResult V E :=
  match model with
  | none => noModelRun st beh
  | some m =>
    if m = "" then noModelRun st beh
    else
      let st1 := definePhase cfg st m op
      if takesCachePath cfg st1 m op then cachePathRun st1 m beh
      else elsePathRun cfg st1 m op beh

/-- A stored cache entry: its key, its reference tags, and its payload. -/
structure StoredEntry (W : Type) where
  key : String
  references : List String
  value : W
deriving DecidableEq, Repr

/-- Glob matching for invalidation patterns: `*` matches any substring, every
other character matches itself. -/
def globMatch : List Char → List Char → Bool
  | [], s => s.isEmpty
  | p :: ps, s =>
    if p = '*' then s.tails.any (fun t => globMatch ps t)
    else
      match s with
      | [] => false
      | c :: ss => p == c && globMatch ps ss

/-- Pattern match of an invalidation pattern against a stored string. -/
def matchesPat (pat s : String) : Bool := globMatch pat.data s.data

/-- The store-level meaning of one issued command: `cache.invalidateAll(p)`
removes every entry one of whose references matches the pattern, and
`redis.del(s)` removes the entry whose key is exactly `s` (ioredis `DEL`
takes literal keys). Executor and cache-layer read calls do not remove
entries. -/
def applyEff (store : List (StoredEntry W)) : Eff → List (StoredEntry W)
  | Eff.invalidateAll p => store.filter (fun en => !(en.references.any (fun r => matchesPat p r)))
  | Eff.redisDel s => store.filter (fun en => !(en.key == s))
  | _ => store

/-- The store after applying a run's issued commands in order. -/
def applyEffects (store : List (StoredEntry W)) (effs : List Eff) : List (StoredEntry W) :=
  effs.foldl applyEff store

/-! ## General lemmas about the embedding -/

lemma mem_concatMap {α β : Type} {f : α → List β} {b : β} :
    ∀ {l : List α}, b ∈ concatMap f l ↔ ∃ a ∈ l, b ∈ f a := by
  intro l
  induction l with
  | nil => simp [concatMap]
  | cons a as ih => simp [concatMap, List.mem_append, ih, List.mem_cons, exists_eq_or_imp]

lemma cacheMethod_not_mutation : ∀ op ∈ defaultCacheMethods, op ∉ defaultMutationMethods := by
  decide

lemma mem_excluded_mem_default {cfg : Config} {op : PrismaAction}
    (h : op ∈ excludedCacheMethodsOf cfg) : op ∈ defaultCacheMethods :=
  (List.mem_filter.mp h).1

lemma allOperations_cachePath {V E : Type} (cfg : Config) (st : CacheSt) (m : String)
    (op : PrismaAction) (beh : Beh V E) (hne : m ≠ "")
    (hc : takesCachePath cfg (definePhase cfg st m op) m op) :
    allOperations cfg st (some m) op beh = cachePathRun (definePhase cfg st m op) m beh := by
  simp [allOperations, hne, hc]

lemma allOperations_elsePath {V E : Type} (cfg : Config) (st : CacheSt) (m : String)
    (op : PrismaAction) (beh : Beh V E) (hne : m ≠ "")
    (hnc : ¬ takesCachePath cfg (definePhase cfg st m op) m op) :
    allOperations cfg st (some m) op beh = elsePathRun cfg (definePhase cfg st m op) m op beh := by
  simp [allOperations, hne, hnc]

lemma elsePathRun_nonmut {V E : Type} (cfg : Config) (st1 : CacheSt) (m : String)
    (op : PrismaAction) (beh : Beh V E) (hmut : op ∉ defaultMutationMethods) :
    elsePathRun cfg st1 m op beh =
      { st := st1, effects := [Eff.execCall], execCalls := 1, result := beh.exec } := by
  cases h : beh.exec with
  | error e => simp [elsePathRun, h]
  | ok v => simp [elsePathRun, h, hmut]

lemma notCachePath_of_mutation {cfg : Config} {st1 : CacheSt} {m : String} {op : PrismaAction}
    (hm : op ∈ defaultMutationMethods) : ¬ takesCachePath cfg st1 m op :=
  fun h => h.2.2.1 hm

lemma foldl_defineModelEntry_id (cfg : Config) (m : String) (op : PrismaAction) :
    ∀ (ms : List ModelConfig) (st : CacheSt),
      (∀ e ∈ ms, e.model ≠ m ∨ op ∈ e.excludeMethods.getD []) →
      ms.foldl (defineModelEntry cfg m op) st = st := by
  intro ms
  induction ms with
  | nil => intro st _; rfl
  | cons e es ih =>
    intro st h
    have he := h e (List.mem_cons_self _ _)
    have hstep : defineModelEntry cfg m op st e = st := by
      unfold defineModelEntry
      rw [if_neg]
      rintro ⟨_, h2, _, h4⟩
      rcases he with he | he
      · exact he h2
      · exact h4 he
    rw [List.foldl_cons, hstep]
    exact ih st (fun e' he' => h e' (List.mem_cons_of_mem _ he'))

lemma findExcl_some_of_exists (m : String) :
    ∀ (ms : List ModelConfig), (∃ e ∈ ms, e.model = m ∧ e.excludeMethods.getD [] ≠ []) →
      ∃ e1, findExcl ms m = some e1 ∧ e1 ∈ ms ∧ e1.model = m := by
  intro ms
  induction ms with
  | nil => intro h; simp at h
  | cons e es ih =>
    intro h
    unfold findExcl
    by_cases hc : e.model = m ∧ e.excludeMethods.getD [] ≠ []
    · exact ⟨e, by rw [if_pos hc], List.mem_cons_self _ _, hc.1⟩
    · rw [if_neg hc]
      have hes : ∃ e' ∈ es, e'.model = m ∧ e'.excludeMethods.getD [] ≠ [] := by
        rcases h with ⟨e', he', hp⟩
        rcases List.mem_cons.mp he' with rfl | hmem
        · exact absurd hp hc
        · exact ⟨e', hmem, hp⟩
      rcases ih hes with ⟨e1, h1, h2, h3⟩
      exact ⟨e1, h1, List.mem_cons_of_mem _ h2, h3⟩

lemma perModelBlocked_true (cfg : Config) (m : String) (op : PrismaAction)
    (hall : ∀ e ∈ cfg.models, e.model = m → op ∈ e.excludeMethods.getD [])
    (e0 : ModelConfig) (he0 : e0 ∈ cfg.models) (hm0 : e0.model = m) :
    perModelBlocked cfg m op = true := by
  have hop0 : op ∈ e0.excludeMethods.getD [] := hall e0 he0 hm0
  have hex : ∃ e ∈ cfg.models, e.model = m ∧ e.excludeMethods.getD [] ≠ [] :=
    ⟨e0, he0, hm0, by intro hnil; rw [hnil] at hop0; exact List.not_mem_nil op hop0⟩
  rcases findExcl_some_of_exists m cfg.models hex with ⟨e1, hfind, hmem, hmod⟩
  unfold perModelBlocked
  rw [hfind]
  exact decide_eq_true (hall e1 hmem hmod)

lemma definePhase_id (cfg : Config) (st : CacheSt) (m : String) (op : PrismaAction)
    (hall : ∀ e ∈ cfg.models, e.model = m → op ∈ e.excludeMethods.getD [])
    (e0 : ModelConfig) (he0 : e0 ∈ cfg.models) (hm0 : e0.model = m) :
    definePhase cfg st m op = st := by
  unfold definePhase
  by_cases hexc : op ∈ excludedCacheMethodsOf cfg
  · rw [if_pos hexc]
  · rw [if_neg hexc]
    have hfold : cfg.models.foldl (defineModelEntry cfg m op) st = st :=
      foldl_defineModelEntry_id cfg m op cfg.models st (fun e he => by
        by_cases hm : e.model = m
        · exact Or.inr (hall e he hm)
        · exact Or.inl hm)
    have hpb := perModelBlocked_true cfg m op hall e0 he0 hm0
    simp only [hfold]
    rw [if_neg]
    rintro ⟨_, _, hfalse⟩
    rw [hpb] at hfalse
    exact Bool.noConfusion hfalse

lemma firstErr_eq_none {V E : Type} (beh : Beh V E) (cmds : List Eff)
    (h : ∀ p, Eff.invalidateAll p ∈ cmds → beh.invOut p = Except.ok ()) :
    firstErr beh cmds = none := by
  induction cmds with
  | nil => rfl
  | cons c cs ih =>
    have htail : ∀ p, Eff.invalidateAll p ∈ cs → beh.invOut p = Except.ok () :=
      fun p hp => h p (List.mem_cons_of_mem _ hp)
    cases c with
    | invalidateAll p => simp [firstErr, settleEff, h p (List.mem_cons_self _ _), ih htail]
    | redisDel p => simp [firstErr, settleEff, removeFormRedis, ih htail]
    | execCall => simp [firstErr, settleEff, ih htail]
    | cacheCall mm => simp [firstErr, settleEff, ih htail]

lemma effects_of_mutation {V E : Type} (cfg : Config) (st : CacheSt) (m : String)
    (op : PrismaAction) (beh : Beh V E) (v : V)
    (hm : op ∈ defaultMutationMethods) (hne : m ≠ "") (hok : beh.exec = Except.ok v) :
    (allOperations cfg st (some m) op beh).effects = Eff.execCall :: invalidationCommands cfg m := by
  rw [allOperations_elsePath cfg st m op beh hne (notCachePath_of_mutation hm)]
  simp [elsePathRun, hok, hm]

/-! ## Concrete runs used to evaluate the handler -/

/-- A run whose cache call resolves from the store (hit: value `42`, no
upstream call inside the cache layer); a direct executor call resolves `99`;
all purges succeed. -/
def behHit : Beh Nat Nat :=
  { exec := Except.ok 99, cacheUsedExec := false, cacheRes := Except.ok 42,
    invOut := fun _ => Except.ok (), redisOut := fun _ => Except.ok () }

/-- A run whose cache call is a miss that reached the upstream executor and
rejected with the executor's error `7`; a subsequent direct executor call
resolves `42`. -/
def behMiss : Beh Nat Nat :=
  { exec := Except.ok 42, cacheUsedExec := true, cacheRes := Except.error 7,
    invOut := fun _ => Except.ok (), redisOut := fun _ => Except.ok () }

/-- A run whose cache call rejects with a backend error `3` before reaching
the upstream executor; a direct executor call resolves `42`. -/
def behBackendFail : Beh Nat Nat :=
  { exec := Except.ok 42, cacheUsedExec := false, cacheRes := Except.error 3,
    invOut := fun _ => Except.ok (), redisOut := fun _ => Except.ok () }

/-- A run whose executor succeeds but every `cache.invalidateAll` purge
promise rejects with error `9`. -/
def behPurgeFail : Beh Nat Nat :=
  { exec := Except.ok 1, cacheUsedExec := false, cacheRes := Except.ok 1,
    invOut := fun _ => Except.error 9, redisOut := fun _ => Except.ok () }

/-- A configuration whose only models entry excludes `findMany` from caching
for model `User`. -/
def cfgA : Config := { models := [{ model := "User", excludeMethods := some [.query .findMany] }] }

/-- The `cache.define` state after a `findUnique` on `User` ran under
`cfgA`: the per-model cache function for `User` exists. -/
def stA : CacheSt := definePhase cfgA [] "User" (.query .findUnique)

/-- A configuration with a Redis storage backend and no models entries. -/
def cfgB : Config := { storageIsRedis := true }

/-- A configuration excluding `findMany` globally. -/
def cfgE : Config := { excludeMethods := [.query .findMany] }

/-! ## Claims -/

/-- Claim C8: for every operation whose entity is absent, the upstream
executor is called directly and its result returned, with no cache read, no
cache write, no invalidation, and no change to the defined cache functions. -/
theorem no_model_direct_query {V E : Type} (cfg : Config) (st : CacheSt)
    (op : PrismaAction) (beh : Beh V E) :
    (allOperations cfg st none op beh).effects = [Eff.execCall] ∧
    (allOperations cfg st none op beh).result = beh.exec ∧
    (allOperations cfg st none op beh).st = st ∧
    (allOperations cfg st none op beh).execCalls = 1 :=
  ⟨rfl, rfl, rfl, rfl⟩

/-- Claim C9: a mutation issued without a model performs no invalidation:
applying the run's issued commands to any existing store leaves every entry
stored unchanged, and the run returns the executor's result. -/
theorem raw_mutation_frame {V E W : Type} (cfg : Config) (st : CacheSt)
    (op : PrismaAction) (beh : Beh V E) (store : List (StoredEntry W))
    (hm : op ∈ defaultMutationMethods) :
    applyEffects store (allOperations cfg st none op beh).effects = store ∧
    (allOperations cfg st none op beh).result = beh.exec :=
  ⟨rfl, rfl⟩

/-- Witness for C9: a `executeRawUnsafe` mutation with an existing stored
entry, which survives unchanged. -/
theorem raw_mutation_frame_check :
    applyEffects [⟨"User~k", ["User~k"], (5 : Nat)⟩]
        (allOperations ({} : Config) [] none (.mutation .executeRawUnsafe) behHit).effects =
      [⟨"User~k", ["User~k"], (5 : Nat)⟩] ∧
    (allOperations ({} : Config) [] none (.mutation .executeRawUnsafe) behHit).result =
      behHit.exec :=
  raw_mutation_frame ({} : Config) [] (.mutation .executeRawUnsafe) behHit
    [⟨"User~k", ["User~k"], (5 : Nat)⟩] (by decide)

/-- Claim C1 counterexample: under `cfgA` the pair (`User`, `findMany`) is
excluded by the per-model `excludeMethods`, yet once the cache function for
`User` exists (defined by an earlier `findUnique`), a `findMany` run takes
the cached branch: the cache layer is consulted, a cached value is returned,
and the upstream executor is never invoked. -/
theorem perModelExclusion_cache_hit :
    (∀ e ∈ cfgA.models, PrismaAction.query .findMany ∈ e.excludeMethods.getD []) ∧
    (allOperations cfgA stA (some "User") (.query .findMany) behHit).execCalls = 0 ∧
    (allOperations cfgA stA (some "User") (.query .findMany) behHit).effects =
      [Eff.cacheCall "User"] ∧
    (allOperations cfgA stA (some "User") (.query .findMany) behHit).result = Except.ok 42 := by
  decide

/-- Claim C1 (amended): the exclusion guarantee holds for the global
excluded-methods list, for globally excluded models (on read kinds), and for
a per-model `excludeCacheMethods` entry only as long as no cache function
has yet been defined for the model: in those cases the executor is invoked
exactly once, its result is returned, and no cache-layer call or purge is
issued. Once `cache[model]` exists, a per-model excluded method is served
through the cache (see the counterexample). -/
theorem exclusion_bypasses_cache {V E : Type} (cfg : Config) (st : CacheSt)
    (m : String) (op : PrismaAction) (beh : Beh V E)
    (hcase :
      op ∈ excludedCacheMethodsOf cfg ∨
      (m ∈ cfg.excludeModels ∧ op ∉ defaultMutationMethods) ∨
      (lookupDef st m = none ∧ op ∉ defaultMutationMethods ∧
        (∀ e ∈ cfg.models, e.model = m → op ∈ e.excludeMethods.getD []) ∧
        ∃ e0 ∈ cfg.models, e0.model = m)) :
    (allOperations cfg st (some m) op beh).effects = [Eff.execCall] ∧
    (allOperations cfg st (some m) op beh).result = beh.exec ∧
    (allOperations cfg st (some m) op beh).execCalls = 1 := by
  by_cases hme : m = ""
  · subst hme
    simp [allOperations, noModelRun]
  · have step : ∀ hnc : ¬ takesCachePath cfg (definePhase cfg st m op) m op,
        op ∉ defaultMutationMethods →
        (allOperations cfg st (some m) op beh).effects = [Eff.execCall] ∧
        (allOperations cfg st (some m) op beh).result = beh.exec ∧
        (allOperations cfg st (some m) op beh).execCalls = 1 := by
      intro hnc hmut
      rw [allOperations_elsePath cfg st m op beh hme hnc,
        elsePathRun_nonmut cfg _ m op beh hmut]
      exact ⟨rfl, rfl, rfl⟩
    rcases hcase with hexc | ⟨hmem, hmut⟩ | ⟨hl, hmut, hall, e0, he0, hm0⟩
    · exact step (fun h => h.2.1 hexc)
        (cacheMethod_not_mutation op (mem_excluded_mem_default hexc))
    · exact step (fun h => h.1 hmem) hmut
    · refine step (fun h => ?_) hmut
      have h4 := h.2.2.2
      rw [definePhase_id cfg st m op hall e0 he0 hm0, hl] at h4
      exact Bool.noConfusion h4

/-- Witness for C1 (amended): a globally excluded `findMany` goes straight
to the executor. -/
theorem exclusion_bypasses_cache_check :
    (allOperations cfgE [] (some "User") (.query .findMany) behHit).effects = [Eff.execCall] ∧
    (allOperations cfgE [] (some "User") (.query .findMany) behHit).result = behHit.exec ∧
    (allOperations cfgE [] (some "User") (.query .findMany) behHit).execCalls = 1 :=
  exclusion_bypasses_cache cfgE [] "User" (.query .findMany) behHit (Or.inl (by decide))

/-- Claim C2 counterexample: under a Redis backend, a successful `create` on
`User` purges `*User~*` and `User~*` from the logical cache layer but issues
only the `*User~*` purge against the raw Redis store: the claimed raw purge
of `User~*` is never issued. -/
theorem raw_redis_purge_missing_pattern :
    cfgB.storageIsRedis = true ∧
    (allOperations cfgB [] (some "User") (.mutation .create) behHit).result = Except.ok 99 ∧
    Eff.invalidateAll "*User~*" ∈
      (allOperations cfgB [] (some "User") (.mutation .create) behHit).effects ∧
    Eff.invalidateAll "User~*" ∈
      (allOperations cfgB [] (some "User") (.mutation .create) behHit).effects ∧
    Eff.redisDel "*User~*" ∈
      (allOperations cfgB [] (some "User") (.mutation .create) behHit).effects ∧
    Eff.redisDel "User~*" ∉
      (allOperations cfgB [] (some "User") (.mutation .create) behHit).effects := by
  decide

/-- Claim C2 (amended): for every successful write on model `m` the
invalidation step issues pattern-deletes for both `*m~*` and `m~*` against
the logical cache layer, and, when the storage backend is Redis, also issues
the `*m~*` purge (that one only) directly against the raw Redis store. -/
theorem write_invalidation_patterns {V E : Type} (cfg : Config) (st : CacheSt)
    (m : String) (op : PrismaAction) (beh : Beh V E) (v : V)
    (hm : op ∈ defaultMutationMethods) (hne : m ≠ "") (hok : beh.exec = Except.ok v) :
    (allOperations cfg st (some m) op beh).effects = Eff.execCall :: invalidationCommands cfg m ∧
    Eff.invalidateAll ("*" ++ m ++ "~*") ∈ (allOperations cfg st (some m) op beh).effects ∧
    Eff.invalidateAll (m ++ "~*") ∈ (allOperations cfg st (some m) op beh).effects ∧
    (cfg.storageIsRedis = true →
      Eff.redisDel ("*" ++ m ++ "~*") ∈ (allOperations cfg st (some m) op beh).effects) := by
  have heff := effects_of_mutation cfg st m op beh v hm hne hok
  refine ⟨heff, ?_, ?_, ?_⟩
  · rw [heff]
    simp [invalidationCommands, List.mem_cons, List.mem_append]
  · rw [heff]
    simp [invalidationCommands, List.mem_cons, List.mem_append]
  · intro hr
    rw [heff]
    simp [invalidationCommands, hr, List.mem_cons, List.mem_append]

/-- Witness for C2 (amended): the concrete Redis-backed `create` on `User`. -/
theorem write_invalidation_patterns_check :
    (allOperations cfgB [] (some "User") (.mutation .create) behHit).effects =
      Eff.execCall :: invalidationCommands cfgB "User" ∧
    Eff.invalidateAll ("*" ++ "User" ++ "~*") ∈
      (allOperations cfgB [] (some "User") (.mutation .create) behHit).effects ∧
    Eff.invalidateAll ("User" ++ "~*") ∈
      (allOperations cfgB [] (some "User") (.mutation .create) behHit).effects ∧
    (cfgB.storageIsRedis = true →
      Eff.redisDel ("*" ++ "User" ++ "~*") ∈
        (allOperations cfgB [] (some "User") (.mutation .create) behHit).effects) :=
  write_invalidation_patterns cfgB [] "User" (.mutation .create) behHit 99
    (by decide) (by decide) rfl

/-- Claim C3 counterexample: the executor of a `create` succeeds, every
`cache.invalidateAll` purge promise rejects with error `9`, and
`await Promise.all(invalidateList)` propagates that purge failure as the
operation's own rejection to the caller of the write. -/
theorem purge_failure_propagates :
    behPurgeFail.exec = Except.ok 1 ∧
    (allOperations ({} : Config) [] (some "User") (.mutation .create) behPurgeFail).result =
      Except.error 9 := by
  decide

/-- Claim C3 (amended): invalidation runs only after the executor has
returned successfully: on executor failure no purge command is issued, the
store is untouched and the executor's error is returned. On success the full
purge list is issued (all purge promises are created before any is awaited,
so one failure does not prevent another from being issued), raw-Redis delete
failures are caught inside `removeFormRedis` and never propagate, and when
every logical-cache purge resolves the write's value is returned; but a
rejected `cache.invalidateAll` promise rejects the `Promise.all` and is
propagated to the caller (see the counterexample). -/
theorem invalidation_after_success {V E W : Type} (cfg : Config) (st : CacheSt)
    (m : String) (op : PrismaAction) (beh : Beh V E)
    (hm : op ∈ defaultMutationMethods) (hne : m ≠ "") :
    (∀ e, beh.exec = Except.error e →
      (allOperations cfg st (some m) op beh).effects = [Eff.execCall] ∧
      (allOperations cfg st (some m) op beh).result = Except.error e ∧
      ∀ store : List (StoredEntry W),
        applyEffects store (allOperations cfg st (some m) op beh).effects = store) ∧
    (∀ v, beh.exec = Except.ok v →
      (allOperations cfg st (some m) op beh).effects =
        Eff.execCall :: invalidationCommands cfg m ∧
      ((∀ p, Eff.invalidateAll p ∈ invalidationCommands cfg m → beh.invOut p = Except.ok ()) →
        (allOperations cfg st (some m) op beh).result = Except.ok v)) ∧
    (∀ p, settleEff beh (Eff.redisDel p) = Except.ok ()) := by
  have hrw := allOperations_elsePath cfg st m op beh hne (notCachePath_of_mutation hm)
  refine ⟨?_, ?_, fun p => rfl⟩
  · intro e he
    rw [hrw]
    refine ⟨by simp [elsePathRun, he], by simp [elsePathRun, he], fun store => ?_⟩
    simp [elsePathRun, he, applyEffects, applyEff]
  · intro v hv
    rw [hrw]
    refine ⟨by simp [elsePathRun, hv, hm], fun hall => ?_⟩
    simp [elsePathRun, hv, hm, promiseAll, firstErr_eq_none beh _ hall]

/-- Witness for C3 (amended): the concrete Redis-backed `create` on `User`
with all purges succeeding. -/
theorem invalidation_after_success_check :
    (∀ e, behHit.exec = Except.error e →
      (allOperations cfgB [] (some "User") (.mutation .create) behHit).effects = [Eff.execCall] ∧
      (allOperations cfgB [] (some "User") (.mutation .create) behHit).result = Except.error e ∧
      ∀ store : List (StoredEntry Nat),
        applyEffects store
          (allOperations cfgB [] (some "User") (.mutation .create) behHit).effects = store) ∧
    (∀ v, behHit.exec = Except.ok v →
      (allOperations cfgB [] (some "User") (.mutation .create) behHit).effects =
        Eff.execCall :: invalidationCommands cfgB "User" ∧
      ((∀ p, Eff.invalidateAll p ∈ invalidationCommands cfgB "User" →
          behHit.invOut p = Except.ok ()) →
        (allOperations cfgB [] (some "User") (.mutation .create) behHit).result =
          Except.ok v)) ∧
    (∀ p, settleEff behHit (Eff.redisDel p) = Except.ok ()) :=
  invalidation_after_success cfgB [] "User" (.mutation .create) behHit (by decide) (by decide)

/-- The models entry for `Post` used by the C4 scenario: related entity
`Comment`, substring invalidation explicitly enabled. -/
def postEntry : ModelConfig :=
  { model := "Post", invalidateRelated := some ["Comment"], useContainsInvalidation := some true }

/-- A configuration where `Post` declares `Comment` as related with
substring invalidation on, while `Comment`'s own entry explicitly sets its
substring-invalidation flag to `false` and the global flag is `false`. -/
def cfgD : Config :=
  { models := [postEntry, { model := "Comment", useContainsInvalidation := some false }] }

/-- Claim C4 counterexample: under `cfgD`, `Comment`'s own entry explicitly
sets `useContainsInvalidation := false` and the global flag is `false`, yet
a successful `delete` on `Post` still issues the substring purge for
`Comment`: the flag consulted is the one of the written model's entry
(`Post`), not the related entity's own flag. -/
theorem related_flag_from_writing_model :
    ((cfgD.models.find? (fun e => e.model == "Comment")).map ModelConfig.useContainsInvalidation)
      = some (some false) ∧
    cfgD.useContainsInvalidation = false ∧
    Eff.invalidateAll (containsPat "Comment") ∈
      (allOperations cfgD [] (some "Post") (.mutation .delete) behHit).effects ∧
    Eff.invalidateAll (containsPat "comment") ∈
      (allOperations cfgD [] (some "Post") (.mutation .delete) behHit).effects := by
  decide

/-- Claim C4 (amended): for every successful write on model `m` and every
related entity `r` declared by a models entry `e` for `m`, the invalidation
step issues the direct purge patterns `*r~*` and `r~*`, and issues the
substring-invalidation patterns for `r` (with raw-Redis deletes when the
backend is Redis) according to the *written* model's entry flag when that is
explicitly set, otherwise the global flag; the related entity's own entry
flag is not consulted (see the counterexample). -/
theorem related_invalidation_patterns {V E : Type} (cfg : Config) (st : CacheSt)
    (m : String) (op : PrismaAction) (beh : Beh V E) (v : V)
    (e : ModelConfig) (r : String)
    (hm : op ∈ defaultMutationMethods) (hne : m ≠ "") (hok : beh.exec = Except.ok v)
    (he : e ∈ cfg.models) (hem : e.model = m) (hr : r ∈ e.invalidateRelated.getD []) :
    Eff.invalidateAll ("*" ++ r ++ "~*") ∈ (allOperations cfg st (some m) op beh).effects ∧
    Eff.invalidateAll (r ++ "~*") ∈ (allOperations cfg st (some m) op beh).effects ∧
    (e.useContainsInvalidation.getD cfg.useContainsInvalidation = true →
      Eff.invalidateAll (containsPat r) ∈ (allOperations cfg st (some m) op beh).effects ∧
      Eff.invalidateAll (containsPat (lowerString r)) ∈
        (allOperations cfg st (some m) op beh).effects ∧
      (cfg.storageIsRedis = true →
        Eff.redisDel (containsPat r) ∈ (allOperations cfg st (some m) op beh).effects ∧
        Eff.redisDel (containsPat (lowerString r)) ∈
          (allOperations cfg st (some m) op beh).effects)) := by
  have heff := effects_of_mutation cfg st m op beh v hm hne hok
  have hbase : ∀ x ∈ relatedCmds cfg e, x ∈ (allOperations cfg st (some m) op beh).effects := by
    intro x hx
    rw [heff]
    refine List.mem_cons_of_mem _ ?_
    unfold invalidationCommands
    refine List.mem_append.mpr (Or.inr ?_)
    refine mem_concatMap.mpr ⟨e, List.mem_filter.mpr ⟨he, by simp [hem]⟩, ?_⟩
    exact List.mem_append.mpr (Or.inl hx)
  have hgen : ∀ x ∈ ([Eff.invalidateAll ("*" ++ r ++ "~*"), Eff.invalidateAll (r ++ "~*")]
      ++ (if e.useContainsInvalidation.getD cfg.useContainsInvalidation then
            [Eff.invalidateAll (containsPat r), Eff.invalidateAll (containsPat (lowerString r))]
            ++ (if cfg.storageIsRedis then
                  [Eff.redisDel (containsPat r), Eff.redisDel (containsPat (lowerString r))]
                else [])
          else [])),
      x ∈ (allOperations cfg st (some m) op beh).effects := by
    intro x hx
    exact hbase x (mem_concatMap.mpr ⟨r, hr, hx⟩)
  refine ⟨hgen _ (by simp), hgen _ (by simp), fun hflag => ?_⟩
  refine ⟨hgen _ (by simp [hflag]), hgen _ (by simp [hflag]), fun hred => ?_⟩
  exact ⟨hgen _ (by simp [hflag, hred]), hgen _ (by simp [hflag, hred])⟩

/-- Witness for C4 (amended): the concrete `delete` on `Post` under `cfgD`. -/
theorem related_invalidation_patterns_check :
    Eff.invalidateAll ("*" ++ "Comment" ++ "~*") ∈
      (allOperations cfgD [] (some "Post") (.mutation .delete) behHit).effects ∧
    Eff.invalidateAll ("Comment" ++ "~*") ∈
      (allOperations cfgD [] (some "Post") (.mutation .delete) behHit).effects ∧
    (postEntry.useContainsInvalidation.getD cfgD.useContainsInvalidation = true →
      Eff.invalidateAll (containsPat "Comment") ∈
        (allOperations cfgD [] (some "Post") (.mutation .delete) behHit).effects ∧
      Eff.invalidateAll (containsPat (lowerString "Comment")) ∈
        (allOperations cfgD [] (some "Post") (.mutation .delete) behHit).effects ∧
      (cfgD.storageIsRedis = true →
        Eff.redisDel (containsPat "Comment") ∈
          (allOperations cfgD [] (some "Post") (.mutation .delete) behHit).effects ∧
        Eff.redisDel (containsPat (lowerString "Comment")) ∈
          (allOperations cfgD [] (some "Post") (.mutation .delete) behHit).effects)) :=
  related_invalidation_patterns cfgD [] "Post" (.mutation .delete) behHit 99 postEntry "Comment"
    (by decide) (by decide) rfl (by decide) rfl (by decide)

/-- Claim C5 counterexample: a cached read whose cache call was a miss that
reached the upstream executor and rejected with the executor's error `7`:
the catch block re-invokes the executor (two upstream calls in total) and
returns the second call's value `42`, so the first failure is neither
propagated unchanged nor final, contradicting the claim. -/
theorem upstream_error_retried :
    behMiss.cacheUsedExec = true ∧
    behMiss.cacheRes = Except.error 7 ∧
    (allOperations ({} : Config) [] (some "User") (.query .findUnique) behMiss).execCalls = 2 ∧
    (allOperations ({} : Config) [] (some "User") (.query .findUnique) behMiss).result =
      Except.ok 42 := by
  decide

/-- Claim C5 (amended): on a cached read whose cache call rejects (including
a miss whose upstream executor failed), the catch block invokes the executor
once more directly and the caller receives that second invocation's outcome;
the upstream executor is thus invoked again rather than its first failure
being propagated, and the run issues exactly the cache call followed by the
direct executor call (no entry-storing command). -/
theorem cache_error_fallback_retry {V E : Type} (cfg : Config) (st : CacheSt)
    (m : String) (op : PrismaAction) (beh : Beh V E) (e : E)
    (hne : m ≠ "") (hc : takesCachePath cfg (definePhase cfg st m op) m op)
    (herr : beh.cacheRes = Except.error e) :
    (allOperations cfg st (some m) op beh).result = beh.exec ∧
    (allOperations cfg st (some m) op beh).effects = [Eff.cacheCall m, Eff.execCall] ∧
    (allOperations cfg st (some m) op beh).execCalls =
      (if beh.cacheUsedExec then 1 else 0) + 1 := by
  rw [allOperations_cachePath cfg st m op beh hne hc]
  simp [cachePathRun, herr]

/-- Witness for C5 (amended): the concrete failing miss of the
counterexample run through the amended theorem. -/
theorem cache_error_fallback_retry_check :
    (allOperations ({} : Config) [] (some "User") (.query .findUnique) behMiss).result =
      behMiss.exec ∧
    (allOperations ({} : Config) [] (some "User") (.query .findUnique) behMiss).effects =
      [Eff.cacheCall "User", Eff.execCall] ∧
    (allOperations ({} : Config) [] (some "User") (.query .findUnique) behMiss).execCalls =
      (if behMiss.cacheUsedExec then 1 else 0) + 1 :=
  cache_error_fallback_retry ({} : Config) [] "User" (.query .findUnique) behMiss 7
    (by decide) (by decide) rfl

/-- Claim C6: when the cache call of a read rejects with a backend error,
the run falls back to a direct executor call and returns the executor's
value; the cache failure is only logged, never thrown to the caller. -/
theorem backend_failure_fallback {V E : Type} (cfg : Config) (st : CacheSt)
    (m : String) (op : PrismaAction) (beh : Beh V E) (e : E) (v : V)
    (hne : m ≠ "") (hc : takesCachePath cfg (definePhase cfg st m op) m op)
    (herr : beh.cacheRes = Except.error e) (hok : beh.exec = Except.ok v) :
    (allOperations cfg st (some m) op beh).result = Except.ok v ∧
    (allOperations cfg st (some m) op beh).effects = [Eff.cacheCall m, Eff.execCall] := by
  rw [allOperations_cachePath cfg st m op beh hne hc]
  simp [cachePathRun, herr, hok]

/-- Witness for C6: a concrete backend failure (`error 3` before reaching
the executor) with the direct fallback resolving `42`. -/
theorem backend_failure_fallback_check :
    (allOperations ({} : Config) [] (some "User") (.query .findUnique) behBackendFail).result =
      Except.ok 42 ∧
    (allOperations ({} : Config) [] (some "User") (.query .findUnique) behBackendFail).effects =
      [Eff.cacheCall "User", Eff.execCall] :=
  backend_failure_fallback ({} : Config) [] "User" (.query .findUnique) behBackendFail 3 42
    (by decide) (by decide) rfl rfl

lemma definePhase_single (cfg : Config) (e : ModelConfig) (op : PrismaAction)
    (hmods : cfg.models = [e]) (hexc : op ∉ excludedCacheMethodsOf cfg)
    (hxm : e.model ∉ cfg.excludeModels) (hop : op ∉ e.excludeMethods.getD []) :
    definePhase cfg [] e.model op =
      [(e.model, ⟨e.cacheKey, jsOrNat e.cacheTime cfg.cacheTime⟩)] := by
  unfold definePhase
  rw [if_neg hexc, hmods]
  have hstep : defineModelEntry cfg e.model op [] e =
      [(e.model, ⟨e.cacheKey, jsOrNat e.cacheTime cfg.cacheTime⟩)] := by
    unfold defineModelEntry
    rw [if_pos ⟨rfl, rfl, hxm, hop⟩]
    rfl
  simp only [List.foldl_cons, List.foldl_nil, hstep]
  rw [if_neg]
  rintro ⟨h1, _, _⟩
  simp [lookupDef] at h1

/-- A models entry configuring `cacheTime := 0` for `User`. -/
def entZeroTtl : ModelConfig := { model := "User", cacheTime := some 0 }

/-- A configuration with default TTL `5` and the `cacheTime := 0` entry. -/
def cfgZeroTtl : Config := { models := [entZeroTtl], cacheTime := 5 }

/-- Claim C7 counterexample: with a per-model `cacheTime` of `0` configured
and a default TTL of `5`, the defined cache function's TTL is `5` (the JS
`cacheTime || cacheOptions.ttl` treats the configured `0` as falsy, so the
override does not happen), and with no `cacheKey` override the reference
computed for a stored entry is `"undefined~<key>"`, not `"User~<key>"`: the
references callback destructures `model` from the cache-call argument object
`{ cb, queryArgs }`, which has no `model` property. -/
theorem reference_ttl_not_overridden :
    entZeroTtl.cacheTime = some 0 ∧
    cfgZeroTtl.cacheTime = 5 ∧
    definePhase cfgZeroTtl [] "User" (.query .findUnique) = [("User", ⟨none, 5⟩)] ∧
    referencesOf ⟨none, 5⟩ cacheCallArgsModel "k" = ["undefined~k"] := by
  decide

/-- Claim C7 (amended): for a cached model configured by a models entry,
the stored entry's reference tags are the single-element list
`["<head>~<cacheKey>"]` (no additional references for related entities on
the read path), where the head is the per-model `cacheKey` override when it
is set and nonempty and the literal string `"undefined"` otherwise (the
callback's `model` is destructured from the cache-call arguments, which
carry no model field); and a per-model `cacheTime` overrides the default TTL
exactly when it is nonzero, a configured `0` falling back to the default. -/
theorem reference_and_ttl_derivation (cfg : Config) (e : ModelConfig) (op : PrismaAction)
    (hmods : cfg.models = [e]) (hexc : op ∉ excludedCacheMethodsOf cfg)
    (hxm : e.model ∉ cfg.excludeModels) (hop : op ∉ e.excludeMethods.getD []) :
    definePhase cfg [] e.model op =
      [(e.model, ⟨e.cacheKey, jsOrNat e.cacheTime cfg.cacheTime⟩)] ∧
    (∀ k, referencesOf ⟨e.cacheKey, jsOrNat e.cacheTime cfg.cacheTime⟩ cacheCallArgsModel k =
      [(match e.cacheKey with
         | some ck => if ck = "" then "undefined" else ck
         | none => "undefined") ++ "~" ++ k]) ∧
    (∀ t, e.cacheTime = some t → t ≠ 0 → jsOrNat e.cacheTime cfg.cacheTime = t) ∧
    (e.cacheTime = some 0 → jsOrNat e.cacheTime cfg.cacheTime = cfg.cacheTime) := by
  refine ⟨definePhase_single cfg e op hmods hexc hxm hop, ?_, ?_, ?_⟩
  · intro k
    cases hck : e.cacheKey with
    | none => simp [referencesOf, jsOrOpt, jsUndef, cacheCallArgsModel]
    | some ck =>
      by_cases h : ck = ""
      · simp [referencesOf, jsOrOpt, jsUndef, cacheCallArgsModel, h]
      · simp [referencesOf, jsOrOpt, jsUndef, cacheCallArgsModel, h]
  · intro t ht hnz
    simp [jsOrNat, ht, hnz]
  · intro h0
    simp [jsOrNat, h0]

/-- A models entry with both overrides set and nonzero. -/
def entC7 : ModelConfig := { model := "Post", cacheKey := some "p", cacheTime := some 3 }

/-- A configuration with default TTL `9` and the overriding entry. -/
def cfgC7 : Config := { models := [entC7], cacheTime := 9 }

/-- Witness for C7 (amended): the overriding entry yields head `"p"` and
TTL `3`. -/
theorem reference_and_ttl_derivation_check :
    definePhase cfgC7 [] entC7.model (.query .findFirst) =
      [(entC7.model, ⟨entC7.cacheKey, jsOrNat entC7.cacheTime cfgC7.cacheTime⟩)] ∧
    (∀ k, referencesOf ⟨entC7.cacheKey, jsOrNat entC7.cacheTime cfgC7.cacheTime⟩
        cacheCallArgsModel k =
      [(match entC7.cacheKey with
         | some ck => if ck = "" then "undefined" else ck
         | none => "undefined") ++ "~" ++ k]) ∧
    (∀ t, entC7.cacheTime = some t → t ≠ 0 → jsOrNat entC7.cacheTime cfgC7.cacheTime = t) ∧
    (entC7.cacheTime = some 0 → jsOrNat entC7.cacheTime cfgC7.cacheTime = cfgC7.cacheTime) :=
  reference_and_ttl_derivation cfgC7 entC7 (.query .findFirst) rfl (by decide) (by decide)
    (by decide)

/-! ## Dedupe / single-flight engine -/

/-- Modelled from the spec: the dedupe/read-through engine of the
Dedupe/Read-Through and Concurrency sections is provided by the external
`async-cache-dedupe` dependency, whose source is not part of this
repository. Per-key state: whether a populating upstream call is in flight,
the callers awaiting it, the number of upstream executor calls made, and the
outcomes delivered to callers. -/
structure DedupeState (V E : Type) where
  inflight : Bool
  joined : List Nat
  execCalls : Nat
  delivered : List (Nat × Except E V)

/-- An event at one key: a caller's read request arriving, or the in-flight
upstream call settling. -/
inductive DedupeEv where
  | request (caller : Nat)
  | resolve
deriving DecidableEq, Repr

/-- The idle per-key state: nothing in flight, no upstream call made. -/
def dInit {V E : Type} : DedupeState V E :=
  { inflight := false, joined := [], execCalls := 0, delivered := [] }

/-- Modelled from the spec: one step of the single-flight mechanism. A
request finding the key idle atomically claims it and triggers the one
upstream call; a request finding a call in flight joins it without calling
upstream; the resolution delivers the call's outcome (value or failure) to
every joined caller and releases the key. -/
def dstep {V E : Type} (outcome : Except E V) (s : DedupeState V E) : DedupeEv → DedupeState V E
  | DedupeEv.request c =>
    if s.inflight then { s with joined := s.joined ++ [c] }
    else { inflight := true, joined := [c], execCalls := s.execCalls + 1,
           delivered := s.delivered }
  | DedupeEv.resolve =>
    if s.inflight then
      { inflight := false, joined := [], execCalls := s.execCalls,
        delivered := s.delivered ++ s.joined.map (fun c => (c, outcome)) }
    else s

/-- Running the single-flight mechanism over a sequence of events. -/
def drun {V E : Type} (outcome : Except E V) (s : DedupeState V E)
    (evs : List DedupeEv) : DedupeState V E :=
  evs.foldl (dstep outcome) s

lemma drun_requests {V E : Type} (outcome : Except E V) :
    ∀ (cs js : List Nat) (n : Nat) (d : List (Nat × Except E V)),
      drun outcome ⟨true, js, n, d⟩ (cs.map DedupeEv.request) = ⟨true, js ++ cs, n, d⟩ := by
  intro cs
  induction cs with
  | nil => intro js n d; simp [drun]
  | cons c cs ih =>
    intro js n d
    have h1 : dstep outcome ⟨true, js, n, d⟩ (DedupeEv.request c) = ⟨true, js ++ [c], n, d⟩ := by
      simp [dstep]
    simp only [List.map_cons, drun, List.foldl_cons, h1]
    have h2 := ih (js ++ [c]) n d
    simp only [drun] at h2
    rw [h2]
    simp

/-- Claim C10: for `N ≥ 1` concurrent read requests for one key, all
arriving while the populating call is outstanding, the upstream executor is
called exactly once, and every caller is delivered that single call's
outcome (its resolved value or its failure). -/
theorem dedupe_single_upstream_call {V E : Type} (outcome : Except E V)
    (callers : List Nat) (hne : callers ≠ []) :
    (drun outcome dInit (callers.map DedupeEv.request ++ [DedupeEv.resolve])).execCalls = 1 ∧
    (drun outcome dInit (callers.map DedupeEv.request ++ [DedupeEv.resolve])).delivered =
      callers.map (fun c => (c, outcome)) := by
  cases callers with
  | nil => exact absurd rfl hne
  | cons c cs =>
    have h0 : dstep outcome dInit (DedupeEv.request c) = ⟨true, [c], 1, []⟩ := by
      simp [dstep, dInit]
    have h1 := drun_requests outcome cs [c] 1 ([] : List (Nat × Except E V))
    simp only [drun] at h1
    simp only [drun, List.map_cons, List.cons_append, List.foldl_cons, List.foldl_append, h0, h1]
    simp [dstep]

/-- Witness for C10: three concurrent callers, one upstream call, all three
delivered the resolved value. -/
theorem dedupe_single_upstream_call_check :
    (drun (Except.ok 5 : Except Nat Nat) dInit
        ([0, 1, 2].map DedupeEv.request ++ [DedupeEv.resolve])).execCalls = 1 ∧
    (drun (Except.ok 5 : Except Nat Nat) dInit
        ([0, 1, 2].map DedupeEv.request ++ [DedupeEv.resolve])).delivered =
      [0, 1, 2].map (fun c => (c, Except.ok 5)) :=
  dedupe_single_upstream_call (Except.ok 5) [0, 1, 2] (by decide)

end PrismaRedis
